import Mathlib

/-!
Verification of the pyop convolution/gradient operator module.

The source under scrutiny is pyop/operators/convolution.py.  Arrays are
modelled exactly: an N-dimensional numpy array is a shape (a list of
dimension sizes) together with its flat data in row-major (C) order.
Floating point numbers are modelled by exact rationals.  The external
collaborators (scipy.signal.convolve in full mode, numpy basic slicing,
numpy zeros/reshape/ravel, scipy.misc.central_diff_weights) are modelled
by their documented mathematical semantics.  The LinearOperator record
and the matvectorized adapter live in modules of this repository that are
not part of the sources given here; they are modelled from the spec and
marked as such below.
-/

set_option maxRecDepth 1000000

namespace Pyop

/-- Python exception kinds raised by this module: ValueError from the
explicit validation checks and from scipy, TypeError from
functools.reduce on an empty shape tuple. -/
inductive PyErr where
  | valueError (msg : String)
  | typeError (msg : String)
  deriving DecidableEq

/-- An N-dimensional numpy array: a shape together with the flat data in
row-major (C) order.  Entries are exact rationals (the float model). -/
structure NDArr where
  shape : List ℕ
  data : List ℚ
  deriving DecidableEq

/-- numpy ndarray.ndim. -/
def NDArr.ndim (a : NDArr) : ℕ := a.shape.length

/-- Whether a multi-index lies inside the bounds given by a shape. -/
def inBoxB : List ℕ → List ℤ → Bool
  | [], [] => true
  | n :: s, v :: i => decide (0 ≤ v) && decide (v < (n : ℤ)) && inBoxB s i
  | _, _ => false

/-- Row-major (C order) flat position of a multi-index. -/
def flatC : List ℕ → List ℤ → ℕ
  | _ :: s, v :: i => v.toNat * s.prod + flatC s i
  | _, _ => 0

/-- Column-major (Fortran order) flat position of a multi-index. -/
def flatF : List ℕ → List ℤ → ℕ
  | n :: s, v :: i => v.toNat + n * flatF s i
  | _, _ => 0

/-- All in-bounds multi-indices of a shape, enumerated in row-major (C)
order. -/
def box : List ℕ → List (List ℤ)
  | [] => [[]]
  | n :: s => (List.range n).flatMap (fun v => (box s).map (fun i => (v : ℤ) :: i))

/-- All in-bounds multi-indices of a shape, enumerated in column-major
(Fortran) order. -/
def boxF : List ℕ → List (List ℤ)
  | [] => [[]]
  | n :: s => (boxF s).flatMap (fun i => (List.range n).map (fun (v : ℕ) => (v : ℤ) :: i))

/-- Entry of an array at a multi-index; zero outside the bounds (the
operations below only ever read in-bounds entries of real numpy arrays,
the zero default makes the convolution sums total). -/
def NDArr.get (a : NDArr) (i : List ℤ) : ℚ :=
  if inBoxB a.shape i then a.data.getD (flatC a.shape i) 0 else 0

/-- Build an array of a given shape from an entry function (tabulated in
row-major order). -/
def NDArr.ofGet (s : List ℕ) (g : List ℤ → ℚ) : NDArr :=
  ⟨s, (box s).map g⟩

/-- numpy.zeros. -/
def zerosArr (s : List ℕ) : NDArr := ⟨s, List.replicate s.prod 0⟩

/-- Model of the external collaborator scipy.signal.convolve in full
mode: the output has shape a.shape + k.shape - 1 along each axis and
entry out[i] equal to the sum over all in-bounds indices j of a of
a[j] * k[i - j]. -/
def convolveFull (a k : NDArr) : NDArr :=
  NDArr.ofGet (List.zipWith (fun m n => m + n - 1) a.shape k.shape)
    (fun i => ((box a.shape).map
      (fun j => a.get j * k.get (List.zipWith (· - ·) i j))).sum)

/-- Model of numpy basic slicing by a tuple of (start, stop) slices, one
per axis (all uses in the source stay inside the sliced array, where the
result has shape stop - start and entry i equal to a[start + i]). -/
def sliceArr (a : NDArr) (slc : List (ℕ × ℕ)) : NDArr :=
  NDArr.ofGet (slc.map (fun p => p.2 - p.1))
    (fun i => a.get (List.zipWith (fun (p : ℕ × ℕ) v => (p.1 : ℤ) + v) slc i))

/-- Model of numpy slicing with a step of -1 on axis d (the slice
a[..., ::-1, ...] taken by the source's __flip): the entry at i is the
entry of a at i with coordinate d replaced by shape[d] - 1 - i[d]. -/
def reverseAxis (a : NDArr) (d : ℕ) : NDArr :=
  NDArr.ofGet a.shape
    (fun i => a.get (i.set d ((a.shape.getD d 0 : ℤ) - 1 - i.getD d 0)))

/-- The private helper __flip of convolution.py: for d in range(a.ndim),
reverse the array along axis d. -/
def flipArr (a : NDArr) : NDArr :=
  (List.range a.ndim).foldl reverseAxis a

/-- The reshape order tokens are plain Python strings. -/
def orderC : String := "C"
def orderF : String := "F"
def orderA : String := "A"

/-- Flat position of a multi-index for a given reshape order.  Order A
on the freshly built C-contiguous arrays of this module behaves as C. -/
def flatOrd (order : String) (s : List ℕ) (i : List ℤ) : ℕ :=
  if order = orderF then flatF s i else flatC s i

/-- Multi-index enumeration for a given reshape order. -/
def boxOrd (order : String) (s : List ℕ) : List (List ℤ) :=
  if order = orderF then boxF s else box s

/-- Model of numpy reshape of a flat vector into an array of the given
shape with the given order. -/
def unravelArr (order : String) (s : List ℕ) (c : List ℚ) : NDArr :=
  NDArr.ofGet s (fun i => c.getD (flatOrd order s i) 0)

/-- Model of numpy ravel of an array with the given order. -/
def ravelArr (order : String) (a : NDArr) : List ℚ :=
  (boxOrd order a.shape).map a.get

/-- Modelled from the spec: the matvectorized adapter (its module is not
among the given sources).  Given a target shape and a reshape order it
turns a function on reshaped N-D blocks into a function on 2-D batches:
for each of the n columns independently it reshapes the flat column into
the shape, applies f, and flattens the result back to a column.  A batch
is represented as the list of its n columns. -/
def matvectorized (s : List ℕ) (order : String) (f : NDArr → NDArr) :
    List (List ℚ) → List (List ℚ) :=
  fun cols => cols.map (fun c => ravelArr order (f (unravelArr order s c)))

/-- Modelled from the spec: the LinearOperator record (its module is not
among the given sources): a shape (rows, cols) and the forward and
adjoint apply functions, stored in the canonical batched-columns form. -/
structure LinearOperator where
  shape : ℕ × ℕ
  apply : List (List ℚ) → List (List ℚ)
  applyAdjoint : List (List ℚ) → List (List ℚ)

/-- Forward application to a single vector: apply to the one-column
batch and read the one output column back. -/
def LinearOperator.applyVec (A : LinearOperator) (x : List ℚ) : List ℚ :=
  (A.apply [x]).headD []

/-- Adjoint application to a single vector. -/
def LinearOperator.applyAdjointVec (A : LinearOperator) (y : List ℚ) : List ℚ :=
  (A.applyAdjoint [y]).headD []

/-- f_start of convolve: the number of extra entries on the left of
axis d in the full convolution, (kernel.shape[d] - 1) // 2. -/
def f_start (kshape : List ℕ) (d : ℕ) : ℕ := (kshape.getD d 0 - 1) / 2

/-- f_stop of convolve: f_start(d) + shape[d]. -/
def f_stop (kshape shape : List ℕ) (d : ℕ) : ℕ :=
  f_start kshape d + shape.getD d 0

/-- The forward slice tuple of convolve. -/
def f_slice (kshape shape : List ℕ) : List (ℕ × ℕ) :=
  (List.range kshape.length).map (fun d => (f_start kshape d, f_stop kshape shape d))

/-- a_start of convolve: adjoint_kernel.shape[d] // 2. -/
def a_start (akshape : List ℕ) (d : ℕ) : ℕ := akshape.getD d 0 / 2

/-- a_stop of convolve: a_start(d) + shape[d]. -/
def a_stop (akshape shape : List ℕ) (d : ℕ) : ℕ :=
  a_start akshape d + shape.getD d 0

/-- The adjoint slice tuple of convolve. -/
def a_slice (akshape shape : List ℕ) : List (ℕ × ℕ) :=
  (List.range akshape.length).map (fun d => (a_start akshape d, a_stop akshape shape d))

/-- convSame of convolve: the full convolution with the kernel, cut back
to the same shape by the given slice tuple. -/
def convSame (img kernel : NDArr) (slc : List (ℕ × ℕ)) : NDArr :=
  sliceArr (convolveFull img kernel) slc

def convolveDimMsg : String := "kernel and shape must have the same dimensions."
def convolveOrderMsg : String := "The order must be C, F, or A"
def reduceEmptyMsg : String := "reduce() of empty iterable with no initial value"

/-- The convolve producer of convolution.py: validates the kernel
dimensionality and the order token, then builds the square operator
whose forward map is the same-mode convolution with the kernel and whose
adjoint map is the same-mode convolution with the fully flipped kernel
under the shifted slice offsets.  The functools.reduce over an empty
shape tuple raises a TypeError, modelled by the third branch. -/
def convolve (kernel : NDArr) (shape : List ℕ) (order : String) :
    Except PyErr LinearOperator :=
  if kernel.ndim ≠ shape.length then
    .error (.valueError convolveDimMsg)
  else if ¬ (order = orderC ∨ order = orderF ∨ order = orderA) then
    .error (.valueError convolveOrderMsg)
  else if shape.isEmpty then
    .error (.typeError reduceEmptyMsg)
  else
    let vector_length := shape.prod
    let adjoint_kernel := flipArr kernel
    .ok
      { shape := (vector_length, vector_length)
        apply := matvectorized shape order
          (fun img => convSame img kernel (f_slice kernel.shape shape))
        applyAdjoint := matvectorized shape order
          (fun img => convSame img adjoint_kernel
            (a_slice adjoint_kernel.shape shape)) }

/-- Dot product of two flat vectors. -/
def dot (x y : List ℚ) : ℚ := (List.zipWith (· * ·) x y).sum

/-- Determinant of a square matrix given as a list of rows, by Laplace
expansion along the first row; the first argument is the dimension,
making the recursion structural. -/
def detFuel : ℕ → List (List ℚ) → ℚ
  | 0, _ => 1
  | _ + 1, [] => 0
  | n + 1, r :: rest =>
      ((List.range (n + 1)).map
        (fun j => (-1) ^ j * r.getD j 0 *
          detFuel n (rest.map (fun row => row.eraseIdx j)))).sum

/-- Determinant of a square matrix given as a list of rows. -/
def detq (rows : List (List ℚ)) : ℚ := detFuel rows.length rows

/-- The minor of a matrix obtained by deleting row i and column j. -/
def minorL (rows : List (List ℚ)) (i j : ℕ) : List (List ℚ) :=
  (rows.eraseIdx i).map (fun row => row.eraseIdx j)

/-- Row r of the inverse of a square matrix, by the cofactor formula:
inv(X)[r][j] = (-1)^(j+r) det(minor X j r) / det X. -/
def matInvRow (rows : List (List ℚ)) (r : ℕ) : List ℚ :=
  (List.range rows.length).map
    (fun j => (-1) ^ (j + r) * detq (minorL rows j r) / detq rows)

def cdwOrderMsg : String :=
  "Number of points must be at least the derivative order + 1."
def cdwOddMsg : String := "The number of points must be odd."

/-- Model of the external collaborator scipy.misc.central_diff_weights:
for an odd number of points Np greater than the derivative order ndiv,
the weights are ndiv! times row ndiv of the inverse of the Vandermonde
matrix on the nodes -ho, ..., ho with ho = Np // 2; otherwise scipy
raises a ValueError. -/
def central_diff_weights (Np ndiv : ℕ) : Except PyErr (List ℚ) :=
  if Np < ndiv + 1 then .error (.valueError cdwOrderMsg)
  else if Np % 2 = 0 then .error (.valueError cdwOddMsg)
  else
    let ho := Np / 2
    let X : List (List ℚ) :=
      (List.range Np).map (fun i => (List.range Np).map (fun k => ((i : ℚ) - ho) ^ k))
    .ok ((matInvRow X ndiv).map (fun w => (Nat.factorial ndiv : ℚ) * w))

/-- One item of a numpy basic-index tuple as used by gradient: a full
slice slice(None) or a fixed coordinate. -/
inductive IdxItem where
  | all
  | fixed (c : ℕ)
  deriving DecidableEq

/-- Whether a multi-index is selected by an index tuple (fixed items
must be matched exactly, full slices match any coordinate). -/
def idxMatch : List IdxItem → List ℤ → Bool
  | [], [] => true
  | .all :: t, _ :: i => idxMatch t i
  | .fixed c :: t, v :: i => decide (v = (c : ℤ)) && idxMatch t i
  | _, _ => false

/-- The coordinate of a multi-index at the (single) full slice of an
index tuple. -/
def freeCoord : List IdxItem → List ℤ → ℤ
  | .all :: _, v :: _ => v
  | .fixed _ :: t, _ :: i => freeCoord t i
  | _, _ => 0

/-- Model of the numpy in-place addition a[idx] += w for an index tuple
with exactly one full slice: every selected entry gains the w entry
indexed by its coordinate along the sliced axis. -/
def addAt (a : NDArr) (idx : List IdxItem) (w : List ℚ) : NDArr :=
  NDArr.ofGet a.shape
    (fun i => a.get i + if idxMatch idx i then w.getD (freeCoord idx i).toNat 0 else 0)

/-- The Python tuple rotation slc[-dim:] + slc[:-dim] used by gradient
(for 0 <= dim < len(slc)). -/
def rotIdx (slc : List IdxItem) (dim : ℕ) : List IdxItem :=
  slc.drop (slc.length - dim) ++ slc.take (slc.length - dim)

/-- The kernel built by gradient: start from numpy.zeros((points,)*ndim)
and, for each (dim, s) in enumerate(step sizes raised to the derivative
power), add weights / s along the centre line of axis dim. -/
def gradKernel (ndim points : ℕ) (stepPows : List ℚ) (weights : List ℚ) : NDArr :=
  let slc : List IdxItem :=
    IdxItem.all :: List.replicate (ndim - 1) (IdxItem.fixed (points / 2))
  stepPows.enum.foldl
    (fun k p => addAt k (rotIdx slc p.1) (weights.map (fun w => w / p.2)))
    (zerosArr (List.replicate ndim points))

def gradShapeMsg : String :=
  "Shape dims must have at least as many points as central difference weights."
def gradStepMsg : String := "Shape and step must have same ndims (length)."

/-- The common tail of gradient once the step list is fixed: obtain the
central difference weights (scipy may raise), reverse them to
compensate for the convolution flip, build the kernel and hand it to
convolve. -/
def gradientBody (derivative points : ℕ) (shape : List ℕ) (step : List ℚ)
    (order : String) : Except PyErr LinearOperator :=
  match central_diff_weights points derivative with
  | .error e => .error e
  | .ok w =>
      let weights := w.reverse
      let stepPows := step.map (fun s => s ^ derivative)
      let kernel := gradKernel shape.length points stepPows weights
      convolve kernel shape order

/-- The gradient producer of convolution.py: validates that every shape
dimension holds at least points entries, defaults a missing step to 1.0
along every dimension, validates the step length, and builds the
central-difference kernel which is passed to convolve. -/
def gradient (derivative points : ℕ) (shape : List ℕ) (step : Option (List ℚ))
    (order : String) : Except PyErr LinearOperator :=
  if shape.any (fun s => s < points) then .error (.valueError gradShapeMsg)
  else if step.isNone then
    gradientBody derivative points shape (List.replicate shape.length 1) order
  else if (step.getD []).length ≠ shape.length then .error (.valueError gradStepMsg)
  else gradientBody derivative points shape (step.getD []) order

/-! ### Basic lemmas: boxes, flattening, entries -/

theorem box_length (s : List ℕ) : (box s).length = s.prod := by
  induction s with
  | nil => rfl
  | cons n s ih =>
      simp only [box, List.length_flatMap, List.prod_cons]
      rw [List.map_congr_left (g := fun _ => s.prod)
        (fun v _ => by simp [Function.comp, ih])]
      simp [List.map_const', List.sum_replicate, smul_eq_mul]

theorem mem_box_inBoxB {s : List ℕ} {i : List ℤ} (h : i ∈ box s) :
    inBoxB s i = true := by
  induction s generalizing i with
  | nil => simp [box] at h; simp [h, inBoxB]
  | cons n s ih =>
      simp only [box, List.mem_flatMap, List.mem_map, List.mem_range] at h
      obtain ⟨v, hv, j, hj, rfl⟩ := h
      simp [inBoxB, ih hj]
      exact_mod_cast hv

theorem length_of_mem_box {s : List ℕ} {i : List ℤ} (h : i ∈ box s) :
    i.length = s.length := by
  induction s generalizing i with
  | nil => simp [box] at h; simp [h]
  | cons n s ih =>
      simp only [box, List.mem_flatMap, List.mem_map, List.mem_range] at h
      obtain ⟨v, _, j, hj, rfl⟩ := h
      simp [ih hj]

theorem flatC_lt {s : List ℕ} {i : List ℤ} (h : inBoxB s i = true) :
    flatC s i < s.prod := by
  induction s generalizing i with
  | nil =>
      cases i with
      | nil => simp [flatC]
      | cons v i => simp [inBoxB] at h
  | cons n s ih =>
      cases i with
      | nil => simp [inBoxB] at h
      | cons v i =>
          simp only [inBoxB, Bool.and_eq_true, decide_eq_true_eq] at h
          obtain ⟨⟨h0, hn⟩, hi⟩ := h
          have hr := ih hi
          have hv : v.toNat < n := by omega
          calc v.toNat * s.prod + flatC s i
              < v.toNat * s.prod + s.prod := by omega
            _ = (v.toNat + 1) * s.prod := by ring
            _ ≤ n * s.prod := Nat.mul_le_mul_right _ (by omega)
            _ = (n :: s).prod := by rw [List.prod_cons]

theorem flatMap_range_getD_chunk {α : Type} (f : ℕ → List α) (C : ℕ) (d : α)
    (hlen : ∀ v, (f v).length = C) :
    ∀ (n q r : ℕ), q < n → r < C →
      ((List.range n).flatMap f).getD (q * C + r) d = (f q).getD r d := by
  have hflat : ∀ m, ((List.range m).flatMap f).length = m * C := by
    intro m
    simp only [List.length_flatMap]
    rw [List.map_congr_left (g := fun _ => C)
      (fun v _ => by simp [Function.comp, hlen])]
    simp [List.map_const', List.sum_replicate, smul_eq_mul]
  intro n
  induction n with
  | zero => intro q r hq _; omega
  | succ m ih =>
      intro q r hq hr
      rw [List.range_succ, List.flatMap_append]
      by_cases hqn : q < m
      · rw [List.getD_append]
        · exact ih q r hqn hr
        · have hlt : q * C + r < m * C := by
            calc q * C + r < q * C + C := by omega
              _ = (q + 1) * C := by ring
              _ ≤ m * C := Nat.mul_le_mul_right _ (by omega)
          rw [hflat m]; exact hlt
      · have hq' : q = m := by omega
        subst hq'
        rw [List.getD_append_right]
        · simp only [hflat q, List.flatMap_cons, List.flatMap_nil, List.append_nil]
          congr 1
          omega
        · rw [hflat q]; omega

theorem box_getD {s : List ℕ} {i : List ℤ} (h : inBoxB s i = true) :
    (box s).getD (flatC s i) [] = i := by
  induction s generalizing i with
  | nil =>
      cases i with
      | nil => rfl
      | cons v i => simp [inBoxB] at h
  | cons n s ih =>
      cases i with
      | nil => simp [inBoxB] at h
      | cons v i =>
          simp only [inBoxB, Bool.and_eq_true, decide_eq_true_eq] at h
          obtain ⟨⟨h0, hn⟩, hi⟩ := h
          have hv : v.toNat < n := by omega
          have hchunk := flatMap_range_getD_chunk
            (fun v => (box s).map (fun j => (v : ℤ) :: j)) s.prod ([] : List ℤ)
            (by intro v; simp [box_length]) n v.toNat (flatC s i) hv (flatC_lt hi)
          rw [show flatC (n :: s) (v :: i) = v.toNat * s.prod + flatC s i from rfl,
            box, hchunk]
          have hlt : flatC s i < (box s).length := by rw [box_length]; exact flatC_lt hi
          rw [List.getD_eq_getElem _ _ (by simpa using hlt), List.getElem_map,
            ← List.getD_eq_getElem _ ([] : List ℤ) hlt, ih hi]
          congr 1
          omega

theorem get_ofGet (s : List ℕ) (g : List ℤ → ℚ) (i : List ℤ) :
    (NDArr.ofGet s g).get i = if inBoxB s i then g i else 0 := by
  by_cases h : inBoxB s i = true
  · have hlt : flatC s i < (box s).length := by rw [box_length]; exact flatC_lt h
    simp only [NDArr.get, NDArr.ofGet, h, if_true]
    rw [List.getD_eq_getElem _ _ (by simpa using hlt), List.getElem_map,
      ← List.getD_eq_getElem _ ([] : List ℤ) hlt, box_getD h]
  · simp [NDArr.get, NDArr.ofGet, h]

theorem map_getD_range (y : List ℚ) :
    (List.range y.length).map (fun k => y.getD k 0) = y := by
  apply List.ext_getElem (by simp)
  intro n h1 h2
  simp only [List.getElem_map, List.getElem_range, List.getD_eq_getElem?_getD,
    List.getElem?_eq_getElem h2, Option.getD_some]

theorem range_flat_mulC (n P : ℕ) :
    (List.range n).flatMap (fun v => (List.range P).map (fun r => v * P + r))
      = List.range (n * P) := by
  induction n with
  | zero => simp
  | succ m ih =>
      rw [List.range_succ, List.flatMap_append, ih]
      simp only [List.flatMap_cons, List.flatMap_nil, List.append_nil]
      rw [show (m + 1) * P = m * P + P by ring, List.range_add]

theorem range_flat_mulF (P n : ℕ) :
    (List.range P).flatMap (fun m => (List.range n).map (fun v => v + n * m))
      = List.range (n * P) := by
  induction P with
  | zero => simp
  | succ m ih =>
      rw [List.range_succ, List.flatMap_append, ih]
      simp only [List.flatMap_cons, List.flatMap_nil, List.append_nil]
      rw [show n * (m + 1) = n * m + n by ring, List.range_add]
      congr 1
      exact List.map_congr_left (fun v _ => by omega)

theorem box_map_flatC (s : List ℕ) :
    (box s).map (flatC s) = List.range s.prod := by
  induction s with
  | nil => rfl
  | cons n s ih =>
      simp only [box, List.map_flatMap, List.map_map, List.prod_cons]
      rw [← range_flat_mulC n s.prod]
      refine List.flatMap_congr (fun v _ => ?_)
      have h1 : (box s).map (flatC (n :: s) ∘ fun i => (v : ℤ) :: i)
          = (box s).map (fun i => v * s.prod + flatC s i) :=
        List.map_congr_left (fun i _ => by simp [Function.comp, flatC])
      rw [h1, show (fun i => v * s.prod + flatC s i)
          = (fun r => v * s.prod + r) ∘ flatC s from rfl,
        ← List.map_map, ih]

theorem boxF_map_flatF (s : List ℕ) :
    (boxF s).map (flatF s) = List.range s.prod := by
  induction s with
  | nil => rfl
  | cons n s ih =>
      simp only [boxF, List.map_flatMap, List.map_map, List.prod_cons]
      rw [← range_flat_mulF s.prod n]
      have h1 : ∀ j ∈ boxF s,
          (List.range n).map (flatF (n :: s) ∘ fun (v : ℕ) => ((v : ℤ) :: j))
            = ((fun m => (List.range n).map (fun v => v + n * m)) ∘ flatF s) j :=
        fun j _ => List.map_congr_left (fun v _ => by simp [Function.comp, flatF])
      rw [List.flatMap_congr h1]
      simp only [Function.comp_def]
      rw [show ((boxF s).flatMap fun j => (List.range n).map (fun v => v + n * flatF s j))
          = ((boxF s).map (flatF s)).flatMap (fun m => (List.range n).map (fun v => v + n * m))
          from (List.flatMap_map (flatF s)
            (fun m => (List.range n).map (fun v => v + n * m)) (boxF s)).symm,
        ih]

theorem mem_boxF_inBoxB {s : List ℕ} {i : List ℤ} (h : i ∈ boxF s) :
    inBoxB s i = true := by
  induction s generalizing i with
  | nil => simp [boxF] at h; simp [h, inBoxB]
  | cons n s ih =>
      simp only [boxF, List.mem_flatMap, List.mem_map, List.mem_range] at h
      obtain ⟨j, hj, v, hv, rfl⟩ := h
      simp [inBoxB, ih hj]
      exact_mod_cast hv

theorem data_eq_map_get {a : NDArr} (ha : a.data.length = a.shape.prod) :
    a.data = (box a.shape).map a.get := by
  calc a.data
      = (List.range a.data.length).map (fun k => a.data.getD k 0) :=
        (map_getD_range _).symm
    _ = ((box a.shape).map (flatC a.shape)).map (fun k => a.data.getD k 0) := by
        rw [ha, box_map_flatC]
    _ = (box a.shape).map a.get := by
        rw [List.map_map]
        exact List.map_congr_left (fun i hi => by
          simp [Function.comp, NDArr.get, mem_box_inBoxB hi])

/-! ### Sum manipulation lemmas -/

theorem list_sum_comm {α β : Type} (l : List α) (m : List β) (f : α → β → ℚ) :
    (l.map (fun a => (m.map (f a)).sum)).sum
      = (m.map (fun b => (l.map (fun a => f a b)).sum)).sum := by
  induction l with
  | nil => simp [List.map_const', List.sum_replicate]
  | cons a l ih =>
      simp only [List.map_cons, List.sum_cons, ih, ← List.sum_map_add]

theorem sum_flatMap {α β : Type} (l : List α) (f : α → List β) (g : β → ℚ) :
    ((l.flatMap f).map g).sum = (l.map (fun a => ((f a).map g).sum)).sum := by
  induction l with
  | nil => rfl
  | cons a l ih => simp [List.flatMap_cons, ih]

theorem sum_boxF (s : List ℕ) (g : List ℤ → ℚ) :
    ((boxF s).map g).sum = ((box s).map g).sum := by
  induction s generalizing g with
  | nil => rfl
  | cons n s ih =>
      rw [boxF, box, sum_flatMap, sum_flatMap]
      have h1 : ∀ j ∈ boxF s,
          (((List.range n).map (fun (v : ℕ) => ((v : ℤ) :: j))).map g).sum
            = ((List.range n).map (fun (v : ℕ) => g ((v : ℤ) :: j))).sum := by
        intro j _; rw [List.map_map]; rfl
      rw [List.map_congr_left h1,
        ih (fun j => ((List.range n).map (fun (v : ℕ) => g ((v : ℤ) :: j))).sum),
        list_sum_comm]
      refine congrArg List.sum (List.map_congr_left (fun v _ => ?_))
      rw [List.map_map]
      rfl

/-! ### Ravel, unravel and dot products -/

@[simp] theorem ofGet_shape (s : List ℕ) (g : List ℤ → ℚ) :
    (NDArr.ofGet s g).shape = s := rfl

@[simp] theorem ofGet_data (s : List ℕ) (g : List ℤ → ℚ) :
    (NDArr.ofGet s g).data = (box s).map g := rfl

theorem mem_boxOrd_inBoxB {o : String} {s : List ℕ} {i : List ℤ}
    (h : i ∈ boxOrd o s) : inBoxB s i = true := by
  unfold boxOrd at h
  split at h
  · exact mem_boxF_inBoxB h
  · exact mem_box_inBoxB h

theorem boxOrd_map_flatOrd (o : String) (s : List ℕ) :
    (boxOrd o s).map (fun i => flatOrd o s i) = List.range s.prod := by
  unfold boxOrd flatOrd
  split
  · exact boxF_map_flatF s
  · exact box_map_flatC s

theorem sum_boxOrd (o : String) (s : List ℕ) (g : List ℤ → ℚ) :
    ((boxOrd o s).map g).sum = ((box s).map g).sum := by
  unfold boxOrd
  split
  · exact sum_boxF s g
  · rfl

theorem ravel_unravel (o : String) (s : List ℕ) (y : List ℚ)
    (hy : y.length = s.prod) : ravelArr o (unravelArr o s y) = y := by
  unfold ravelArr unravelArr
  rw [ofGet_shape,
    List.map_congr_left (g := fun i => y.getD (flatOrd o s i) 0)
      (fun i hi => by rw [get_ofGet, if_pos (mem_boxOrd_inBoxB hi)]),
    show (fun i => y.getD (flatOrd o s i) 0)
      = (fun k => y.getD k 0) ∘ (fun i => flatOrd o s i) from rfl,
    ← List.map_map, boxOrd_map_flatOrd, ← hy, map_getD_range]

theorem dot_comm (x y : List ℚ) : dot x y = dot y x := by
  unfold dot
  rw [List.zipWith_comm_of_comm _ mul_comm]

theorem dot_map_same {α : Type} (L : List α) (f g : α → ℚ) :
    dot (L.map f) (L.map g) = (L.map (fun a => f a * g a)).sum := by
  unfold dot
  rw [List.zipWith_map, List.zipWith_same]

theorem dot_ravel (o : String) (s : List ℕ) (A : NDArr) (hA : A.shape = s)
    (y : List ℚ) (hy : y.length = s.prod) :
    dot (ravelArr o A) y
      = ((box s).map (fun i => A.get i * (unravelArr o s y).get i)).sum := by
  conv_lhs => rw [← ravel_unravel o s y hy]
  unfold ravelArr unravelArr
  rw [hA, ofGet_shape, dot_map_same]
  rw [show (fun i => A.get i * (NDArr.ofGet s (fun i => y.getD (flatOrd o s i) 0)).get i)
      = (fun i => A.get i * (unravelArr o s y).get i) from rfl]
  exact sum_boxOrd o s _

/-! ### Lemmas about __flip -/

/-- The full multi-index reversal i ↦ shape - 1 - i. -/
def revAll (s : List ℕ) (i : List ℤ) : List ℤ :=
  List.zipWith (fun (n : ℕ) (v : ℤ) => (n : ℤ) - 1 - v) s i

/-- The partial reversal that reverses only the first d coordinates. -/
def revBelow : ℕ → List ℕ → List ℤ → List ℤ
  | 0, _, i => i
  | _ + 1, [], i => i
  | _ + 1, _ :: _, [] => []
  | d + 1, n :: s, v :: i => ((n : ℤ) - 1 - v) :: revBelow d s i

theorem inBoxB_length {s : List ℕ} {i : List ℤ} (h : inBoxB s i = true) :
    i.length = s.length := by
  induction s generalizing i with
  | nil => cases i with
      | nil => rfl
      | cons v i => simp [inBoxB] at h
  | cons n s ih =>
      cases i with
      | nil => simp [inBoxB] at h
      | cons v i =>
          simp only [inBoxB, Bool.and_eq_true] at h
          simp [ih h.2]

theorem NDArr.ext' {x y : NDArr} (hs : x.shape = y.shape) (hd : x.data = y.data) :
    x = y := by
  cases x; cases y; simp_all

theorem reverseAxis_shape (a : NDArr) (d : ℕ) : (reverseAxis a d).shape = a.shape := rfl

theorem foldl_reverseAxis_shape (l : List ℕ) :
    ∀ a : NDArr, (l.foldl reverseAxis a).shape = a.shape := by
  induction l with
  | nil => intro a; rfl
  | cons d l ih => intro a; rw [List.foldl_cons, ih, reverseAxis_shape]

theorem flipArr_shape (a : NDArr) : (flipArr a).shape = a.shape :=
  foldl_reverseAxis_shape _ a

theorem inBoxB_set_rev :
    ∀ (s : List ℕ) (i : List ℤ) (d : ℕ), d < s.length →
      inBoxB s (i.set d ((s.getD d 0 : ℤ) - 1 - i.getD d 0)) = inBoxB s i := by
  intro s
  induction s with
  | nil => intro i d hd; simp at hd
  | cons n s ih =>
      intro i d hd
      cases i with
      | nil => simp [inBoxB]
      | cons v i =>
          cases d with
          | zero =>
              simp only [List.set_cons_zero, List.getD_cons_zero, inBoxB]
              have h1 : (decide ((0:ℤ) ≤ (n : ℤ) - 1 - v) &&
                  decide ((n : ℤ) - 1 - v < (n : ℤ)))
                  = (decide ((0:ℤ) ≤ v) && decide (v < (n : ℤ))) := by
                rw [← Bool.decide_and, ← Bool.decide_and, decide_eq_decide]
                omega
              rw [h1]
          | succ d =>
              simp only [List.set_cons_succ, List.getD_cons_succ, inBoxB]
              rw [ih i d (by simpa using hd)]

theorem inBoxB_revAll :
    ∀ (s : List ℕ) (i : List ℤ), i.length = s.length →
      inBoxB s (revAll s i) = inBoxB s i := by
  intro s
  induction s with
  | nil => intro i hi; rw [List.length_nil, List.length_eq_zero] at hi; subst hi; rfl
  | cons n s ih =>
      intro i hi
      cases i with
      | nil => simp at hi
      | cons v i =>
          simp only [revAll, List.zipWith_cons_cons, inBoxB]
          have h1 : (decide ((0:ℤ) ≤ (n : ℤ) - 1 - v) &&
              decide ((n : ℤ) - 1 - v < (n : ℤ)))
              = (decide ((0:ℤ) ≤ v) && decide (v < (n : ℤ))) := by
            rw [← Bool.decide_and, ← Bool.decide_and, decide_eq_decide]
            omega
          rw [h1]
          congr 1
          exact ih i (by simpa using hi)

theorem revAll_revAll :
    ∀ (s : List ℕ) (i : List ℤ), revAll s (revAll s i) = i.take s.length := by
  intro s
  induction s with
  | nil => intro i; rfl
  | cons n s ih =>
      intro i
      cases i with
      | nil => rfl
      | cons v i =>
          simp only [revAll, List.zipWith_cons_cons, List.take_succ_cons] at *
          congr 1
          · omega
          · exact ih i

theorem revBelow_full :
    ∀ (s : List ℕ) (i : List ℤ), i.length = s.length →
      revBelow s.length s i = revAll s i := by
  intro s
  induction s with
  | nil => intro i hi; rw [List.length_nil, List.length_eq_zero] at hi; subst hi; rfl
  | cons n s ih =>
      intro i hi
      cases i with
      | nil => simp at hi
      | cons v i =>
          simp only [List.length_cons, revBelow, revAll, List.zipWith_cons_cons]
          congr 1
          exact ih i (by simpa using hi)

theorem revBelow_set :
    ∀ (d : ℕ) (s : List ℕ) (i : List ℤ), d < s.length → i.length = s.length →
      revBelow (d + 1) s i
        = revBelow d s (i.set d ((s.getD d 0 : ℤ) - 1 - i.getD d 0)) := by
  intro d
  induction d with
  | zero =>
      intro s i hd hi
      cases s with
      | nil => simp at hd
      | cons n s =>
          cases i with
          | nil => simp at hi
          | cons v i => simp [revBelow]
  | succ d ih =>
      intro s i hd hi
      cases s with
      | nil => simp at hd
      | cons n s =>
          cases i with
          | nil => simp at hi
          | cons v i =>
              simp only [revBelow, List.set_cons_succ, List.getD_cons_succ]
              rw [ih s i (by simpa using hd) (by simpa using hi)]

theorem foldl_reverseAxis_get (a : NDArr) :
    ∀ d, d ≤ a.shape.length → ∀ i,
      ((List.range d).foldl reverseAxis a).get i
        = if inBoxB a.shape i then a.get (revBelow d a.shape i) else 0 := by
  intro d
  induction d with
  | zero =>
      intro _ i
      by_cases h : inBoxB a.shape i = true
      · simp [h, revBelow]
      · simp only [List.range_zero, List.foldl_nil, h, if_false]
        simp [NDArr.get, h]
  | succ d ih =>
      intro hd i
      rw [List.range_succ, List.foldl_append, List.foldl_cons, List.foldl_nil]
      rw [show reverseAxis ((List.range d).foldl reverseAxis a) d
          = NDArr.ofGet ((List.range d).foldl reverseAxis a).shape
            (fun i => ((List.range d).foldl reverseAxis a).get
              (i.set d ((((List.range d).foldl reverseAxis a).shape.getD d 0 : ℤ)
                - 1 - i.getD d 0))) from rfl,
        get_ofGet, foldl_reverseAxis_shape]
      by_cases h : inBoxB a.shape i = true
      · rw [if_pos h, if_pos h,
          ih (by omega) (i.set d ((a.shape.getD d 0 : ℤ) - 1 - i.getD d 0)),
          if_pos (by rw [inBoxB_set_rev a.shape i d (by omega)]; exact h),
          ← revBelow_set d a.shape i (by omega) (inBoxB_length h)]
      · rw [if_neg h, if_neg h]

theorem flipArr_get (a : NDArr) (i : List ℤ) :
    (flipArr a).get i
      = if inBoxB a.shape i then a.get (revAll a.shape i) else 0 := by
  unfold flipArr NDArr.ndim
  rw [foldl_reverseAxis_get a a.shape.length le_rfl i]
  by_cases h : inBoxB a.shape i = true
  · rw [if_pos h, if_pos h, revBelow_full a.shape i (inBoxB_length h)]
  · rw [if_neg h, if_neg h]

theorem flipArr_get' (a : NDArr) (i : List ℤ) (hm : i.length = a.ndim) :
    (flipArr a).get i = a.get (revAll a.shape i) := by
  rw [flipArr_get]
  by_cases h : inBoxB a.shape i = true
  · rw [if_pos h]
  · rw [if_neg h]
    have : inBoxB a.shape (revAll a.shape i) = false := by
      rw [inBoxB_revAll a.shape i hm]
      exact Bool.not_eq_true _ ▸ (by simpa using h)
    simp [NDArr.get, this]

theorem flipArr_data_length {a : NDArr} (ha : a.data.length = a.shape.prod) :
    (flipArr a).data.length = a.shape.prod := by
  unfold flipArr NDArr.ndim
  cases hl : a.shape.length with
  | zero => simpa using ha
  | succ d =>
      rw [List.range_succ, List.foldl_append, List.foldl_cons, List.foldl_nil]
      rw [show reverseAxis ((List.range d).foldl reverseAxis a) d
          = NDArr.ofGet ((List.range d).foldl reverseAxis a).shape _ from rfl]
      simp [foldl_reverseAxis_shape, box_length]

/-! ### Index arithmetic for the convolution slices -/

theorem getD_zipWith {α β γ : Type} (f : α → β → γ) (l : List α) (m : List β)
    (d : ℕ) (da : α) (db : β) (dc : γ) (h1 : d < l.length) (h2 : d < m.length) :
    (List.zipWith f l m).getD d dc = f (l.getD d da) (m.getD d db) := by
  rw [List.getD_eq_getElem _ _ (by rw [List.length_zipWith]; omega),
    List.getElem_zipWith, List.getD_eq_getElem _ _ h1, List.getD_eq_getElem _ _ h2]

theorem length_f_slice (ks ss : List ℕ) : (f_slice ks ss).length = ks.length := by
  simp [f_slice]

theorem length_a_slice (ks ss : List ℕ) : (a_slice ks ss).length = ks.length := by
  simp [a_slice]

theorem getD_f_slice (ks ss : List ℕ) (d : ℕ) (h : d < ks.length) :
    (f_slice ks ss).getD d (0, 0) = (f_start ks d, f_stop ks ss d) := by
  rw [List.getD_eq_getElem _ _ (by rw [length_f_slice]; exact h)]
  simp [f_slice]

theorem getD_a_slice (ks ss : List ℕ) (d : ℕ) (h : d < ks.length) :
    (a_slice ks ss).getD d (0, 0) = (a_start ks d, a_stop ks ss d) := by
  rw [List.getD_eq_getElem _ _ (by rw [length_a_slice]; exact h)]
  simp [a_slice]

theorem inBoxB_iff (s : List ℕ) (i : List ℤ) :
    inBoxB s i = true ↔
      (i.length = s.length ∧
        ∀ d, d < s.length → 0 ≤ i.getD d 0 ∧ i.getD d 0 < (s.getD d 0 : ℤ)) := by
  induction s generalizing i with
  | nil => cases i <;> simp [inBoxB]
  | cons n s ih =>
      cases i with
      | nil => simp [inBoxB]
      | cons v i =>
          simp only [inBoxB, Bool.and_eq_true, decide_eq_true_eq, ih, List.length_cons]
          constructor
          · rintro ⟨⟨h0, hn⟩, hlen, hcomp⟩
            refine ⟨by omega, ?_⟩
            intro d hd
            cases d with
            | zero => simpa using ⟨h0, hn⟩
            | succ d =>
                simp only [List.getD_cons_succ]
                exact hcomp d (by omega)
          · rintro ⟨hlen, hcomp⟩
            have h0 := hcomp 0 (by omega)
            simp only [List.getD_cons_zero] at h0
            refine ⟨h0, by omega, ?_⟩
            intro d hd
            have := hcomp (d + 1) (by omega)
            simpa using this

theorem map_sub_f_slice (ks ss : List ℕ) (h : ks.length = ss.length) :
    (f_slice ks ss).map (fun p => p.2 - p.1) = ss := by
  apply List.ext_getElem (by simp [length_f_slice, h])
  intro d h1 h2
  simp [f_slice, f_stop, List.getElem?_eq_getElem h2]

theorem map_sub_a_slice (ks ss : List ℕ) (h : ks.length = ss.length) :
    (a_slice ks ss).map (fun p => p.2 - p.1) = ss := by
  apply List.ext_getElem (by simp [length_a_slice, h])
  intro d h1 h2
  simp [a_slice, a_stop, List.getElem?_eq_getElem h2]

theorem inBox_f_add (ks ss : List ℕ) (hk : ks.length = ss.length)
    (ht : ∀ t ∈ ks, 1 ≤ t) (i : List ℤ) (hi : i ∈ box ss) :
    inBoxB (List.zipWith (fun m n => m + n - 1) ss ks)
      (List.zipWith (fun (p : ℕ × ℕ) v => (p.1 : ℤ) + v) (f_slice ks ss) i) = true := by
  have hib := (inBoxB_iff ss i).mp (mem_box_inBoxB hi)
  have hil : i.length = ss.length := hib.1
  rw [inBoxB_iff]
  constructor
  · simp only [List.length_zipWith, length_f_slice, hk, hil]
  · intro d hd
    rw [List.length_zipWith] at hd
    have hds : d < ss.length := by omega
    have hdk : d < ks.length := by omega
    rw [getD_zipWith _ _ _ _ (0, 0) 0 0 (by rw [length_f_slice]; omega) (by omega),
      getD_zipWith _ _ _ _ 0 0 0 (by omega) (by omega),
      getD_f_slice _ _ _ hdk]
    have hcomp := hib.2 d hds
    have h1t : 1 ≤ ks.getD d 0 := by
      have := ht (ks.getD d 0) (by
        rw [List.getD_eq_getElem _ _ hdk]
        exact List.getElem_mem _)
      exact this
    simp only [f_start]
    omega

theorem inBox_a_add (ks ss : List ℕ) (hk : ks.length = ss.length)
    (ht : ∀ t ∈ ks, 1 ≤ t) (j : List ℤ) (hj : j ∈ box ss) :
    inBoxB (List.zipWith (fun m n => m + n - 1) ss ks)
      (List.zipWith (fun (p : ℕ × ℕ) v => (p.1 : ℤ) + v) (a_slice ks ss) j) = true := by
  have hib := (inBoxB_iff ss j).mp (mem_box_inBoxB hj)
  have hjl : j.length = ss.length := hib.1
  rw [inBoxB_iff]
  constructor
  · simp only [List.length_zipWith, length_a_slice, hk, hjl]
  · intro d hd
    rw [List.length_zipWith] at hd
    have hds : d < ss.length := by omega
    have hdk : d < ks.length := by omega
    rw [getD_zipWith _ _ _ _ (0, 0) 0 0 (by rw [length_a_slice]; omega) (by omega),
      getD_zipWith _ _ _ _ 0 0 0 (by omega) (by omega),
      getD_a_slice _ _ _ hdk]
    have hcomp := hib.2 d hds
    have h1t : 1 ≤ ks.getD d 0 := by
      have := ht (ks.getD d 0) (by
        rw [List.getD_eq_getElem _ _ hdk]
        exact List.getElem_mem _)
      exact this
    simp only [a_start]
    omega

theorem flip_kernel_index (K : NDArr) (ss : List ℕ)
    (hk : K.shape.length = ss.length) (ht : ∀ t ∈ K.shape, 1 ≤ t)
    (i j : List ℤ) (hi : i ∈ box ss) (hj : j ∈ box ss) :
    (flipArr K).get (List.zipWith (· - ·)
        (List.zipWith (fun (p : ℕ × ℕ) v => (p.1 : ℤ) + v)
          (a_slice K.shape ss) j) i)
      = K.get (List.zipWith (· - ·)
        (List.zipWith (fun (p : ℕ × ℕ) v => (p.1 : ℤ) + v)
          (f_slice K.shape ss) i) j) := by
  have hil : i.length = ss.length := length_of_mem_box hi
  have hjl : j.length = ss.length := length_of_mem_box hj
  have hm : (List.zipWith (· - ·)
      (List.zipWith (fun (p : ℕ × ℕ) v => (p.1 : ℤ) + v) (a_slice K.shape ss) j) i).length
      = K.ndim := by
    rw [List.length_zipWith, List.length_zipWith, length_a_slice]
    unfold NDArr.ndim
    omega
  rw [flipArr_get' K _ hm]
  congr 1
  apply List.ext_getElem
  · simp only [revAll, List.length_zipWith, length_f_slice, length_a_slice, hil, hjl, hk]
    omega
  · intro d h1 h2
    simp only [revAll] at h1 ⊢
    simp only [List.length_zipWith, length_f_slice, length_a_slice, hil, hjl, hk]
      at h1 h2
    have hdk : d < K.shape.length := by omega
    have hds : d < ss.length := by omega
    simp only [List.getElem_zipWith, f_slice, a_slice, List.getElem_map,
      List.getElem_range, f_start, f_stop, a_start, a_stop]
    have h1t : 1 ≤ K.shape[d] := ht (K.shape[d]) (List.getElem_mem _)
    have hgd : K.shape.getD d 0 = K.shape[d] := List.getD_eq_getElem _ _ hdk
    rw [hgd]
    omega

theorem boxF_length (s : List ℕ) : (boxF s).length = s.prod := by
  induction s with
  | nil => rfl
  | cons n s ih =>
      simp only [boxF, List.length_flatMap, List.prod_cons]
      rw [List.map_congr_left (g := fun _ => n)
        (fun v _ => by simp [Function.comp])]
      simp [List.map_const', List.sum_replicate, smul_eq_mul, ih, Nat.mul_comm]

theorem boxOrd_length (o : String) (s : List ℕ) : (boxOrd o s).length = s.prod := by
  unfold boxOrd
  split
  · exact boxF_length s
  · exact box_length s

theorem inBoxB_zero {s : List ℕ} (hz : (0 : ℕ) ∈ s) (i : List ℤ) :
    inBoxB s i = false := by
  induction s generalizing i with
  | nil => simp at hz
  | cons n s ih =>
      cases i with
      | nil => rfl
      | cons v i =>
          rcases List.mem_cons.mp hz with h | h
          · subst h
            simp only [inBoxB]
            have : decide (v < ((0 : ℕ) : ℤ)) = false ∨ decide ((0:ℤ) ≤ v) = false := by
              by_cases h0 : (0:ℤ) ≤ v
              · left; simp; omega
              · right; simpa using h0
            rcases this with h' | h' <;> simp [h']
          · simp [inBoxB, ih h]

theorem get_zero_of_zero_dim {a : NDArr} (hz : (0 : ℕ) ∈ a.shape) (i : List ℤ) :
    a.get i = 0 := by
  unfold NDArr.get
  rw [inBoxB_zero hz]
  simp

theorem convSame_get_zero (X K : NDArr) (slc : List (ℕ × ℕ))
    (hz : (0 : ℕ) ∈ K.shape) (i : List ℤ) :
    (convSame X K slc).get i = 0 := by
  unfold convSame sliceArr convolveFull
  simp only [get_ofGet]
  split
  · split
    · rw [List.map_congr_left (g := fun _ => (0 : ℚ))
        (fun j _ => by rw [get_zero_of_zero_dim hz, mul_zero])]
      simp [List.map_const', List.sum_replicate]
    · rfl
  · rfl

theorem convSame_get_f (X K : NDArr) (ss : List ℕ) (hX : X.shape = ss)
    (hk : K.shape.length = ss.length) (ht : ∀ t ∈ K.shape, 1 ≤ t)
    (i : List ℤ) (hi : i ∈ box ss) :
    (convSame X K (f_slice K.shape ss)).get i
      = ((box ss).map (fun j => X.get j * K.get
          (List.zipWith (· - ·)
            (List.zipWith (fun (p : ℕ × ℕ) v => (p.1 : ℤ) + v)
              (f_slice K.shape ss) i) j))).sum := by
  unfold convSame sliceArr convolveFull
  simp only [get_ofGet, ofGet_shape, hX]
  rw [map_sub_f_slice _ _ hk]
  rw [if_pos (mem_box_inBoxB hi), if_pos (inBox_f_add K.shape ss hk ht i hi)]

theorem convSame_get_a (Y K : NDArr) (ss : List ℕ) (hY : Y.shape = ss)
    (hk : K.shape.length = ss.length) (ht : ∀ t ∈ K.shape, 1 ≤ t)
    (j : List ℤ) (hj : j ∈ box ss) :
    (convSame Y (flipArr K) (a_slice (flipArr K).shape ss)).get j
      = ((box ss).map (fun i => Y.get i * (flipArr K).get
          (List.zipWith (· - ·)
            (List.zipWith (fun (p : ℕ × ℕ) v => (p.1 : ℤ) + v)
              (a_slice K.shape ss) j) i))).sum := by
  unfold convSame sliceArr convolveFull
  simp only [get_ofGet, ofGet_shape, hY, flipArr_shape]
  rw [map_sub_a_slice _ _ hk]
  rw [if_pos (mem_box_inBoxB hj), if_pos (inBox_a_add K.shape ss hk ht j hj)]

/-- The heart of the adjoint claim, at the level of reshaped arrays: the
same-mode convolution with the kernel under the forward slice offsets
and the same-mode convolution with the fully flipped kernel under the
adjoint slice offsets pair to the same value against any two arrays of
the operator shape. -/
theorem conv_adjoint_nd (X Y K : NDArr) (ss : List ℕ)
    (hX : X.shape = ss) (hY : Y.shape = ss) (hk : K.shape.length = ss.length) :
    ((box ss).map (fun i =>
        (convSame X K (f_slice K.shape ss)).get i * Y.get i)).sum
      = ((box ss).map (fun j => X.get j *
          (convSame Y (flipArr K) (a_slice (flipArr K).shape ss)).get j)).sum := by
  by_cases ht : ∀ t ∈ K.shape, 1 ≤ t
  · have hL : ((box ss).map (fun i =>
        (convSame X K (f_slice K.shape ss)).get i * Y.get i)).sum
        = ((box ss).map (fun i => ((box ss).map (fun j =>
            X.get j * K.get (List.zipWith (· - ·)
              (List.zipWith (fun (p : ℕ × ℕ) v => (p.1 : ℤ) + v)
                (f_slice K.shape ss) i) j) * Y.get i)).sum)).sum := by
      refine congrArg List.sum (List.map_congr_left (fun i hi => ?_))
      rw [convSame_get_f X K ss hX hk ht i hi]
      exact (List.sum_map_mul_right _ _ _).symm
    have hR : ((box ss).map (fun j => X.get j *
        (convSame Y (flipArr K) (a_slice (flipArr K).shape ss)).get j)).sum
        = ((box ss).map (fun j => ((box ss).map (fun i =>
            X.get j * (Y.get i * K.get (List.zipWith (· - ·)
              (List.zipWith (fun (p : ℕ × ℕ) v => (p.1 : ℤ) + v)
                (f_slice K.shape ss) i) j)))).sum)).sum := by
      refine congrArg List.sum (List.map_congr_left (fun j hj => ?_))
      rw [convSame_get_a Y K ss hY hk ht j hj]
      rw [List.map_congr_left (g := fun i => Y.get i * K.get (List.zipWith (· - ·)
          (List.zipWith (fun (p : ℕ × ℕ) v => (p.1 : ℤ) + v)
            (f_slice K.shape ss) i) j))
        (fun i hi => by rw [flip_kernel_index K ss hk ht i j hi hj])]
      exact (List.sum_map_mul_left _ _ _).symm
    rw [hL, hR, list_sum_comm]
    refine congrArg List.sum (List.map_congr_left (fun i _ => ?_))
    refine congrArg List.sum (List.map_congr_left (fun j _ => ?_))
    ring
  · have hz : (0 : ℕ) ∈ K.shape := by
      push_neg at ht
      obtain ⟨t, htm, ht0⟩ := ht
      have : t = 0 := by omega
      rwa [this] at htm
    have hzf : (0 : ℕ) ∈ (flipArr K).shape := by rwa [flipArr_shape]
    have hzL : (box ss).map (fun i =>
        (convSame X K (f_slice K.shape ss)).get i * Y.get i)
        = (box ss).map (fun _ => (0 : ℚ)) :=
      List.map_congr_left (fun i _ => by
        simp [convSame_get_zero X K (f_slice K.shape ss) hz i])
    have hzR : (box ss).map (fun j => X.get j *
        (convSame Y (flipArr K) (a_slice (flipArr K).shape ss)).get j)
        = (box ss).map (fun _ => (0 : ℚ)) :=
      List.map_congr_left (fun j _ => by
        simp [convSame_get_zero Y (flipArr K) (a_slice (flipArr K).shape ss) hzf j])
    rw [hzL, hzR]

/-! ### Claim theorems -/

/-- Unwrap a successfully constructed operator (used by concrete
witnesses; the fallback is never reached there). -/
def getOp (e : Except PyErr LinearOperator) : LinearOperator :=
  match e with
  | .ok A => A
  | .error _ => ⟨(0, 0), fun b => b, fun b => b⟩

/-- Apply the operator produced by a (possibly failing) construction to
a single vector. -/
def applyOf (e : Except PyErr LinearOperator) (x : List ℚ) : Option (List ℚ) :=
  match e with
  | .ok A => some (A.applyVec x)
  | .error _ => none

/-- C1: for every kernel and shape accepted by convolve, the returned
operator's forward and adjoint maps are exact adjoints: for all vectors
x, y of length prod(shape), dot(apply(x), y) = dot(x, applyAdjoint(y)).
The adjoint built from the fully flipped kernel with offsets
kernel.shape[d] // 2 is the exact transpose of the forward same-mode
convolution with offsets (kernel.shape[d] - 1) // 2. -/
theorem convolve_adjoint_consistency (kernel : NDArr) (shape : List ℕ)
    (order : String) (op : LinearOperator)
    (hop : convolve kernel shape order = Except.ok op)
    (x y : List ℚ) (hx : x.length = shape.prod) (hy : y.length = shape.prod) :
    dot (op.applyVec x) y = dot x (op.applyAdjointVec y) := by
  unfold convolve at hop
  split at hop
  · exact absurd hop (by simp)
  next hdim =>
    split at hop
    · exact absurd hop (by simp)
    next horder =>
      split at hop
      · exact absurd hop (by simp)
      next hne =>
        simp only [Except.ok.injEq] at hop
        subst hop
        have hk : kernel.shape.length = shape.length := by
          simpa [NDArr.ndim] using hdim
        show dot (ravelArr order (convSame (unravelArr order shape x) kernel
            (f_slice kernel.shape shape))) y
          = dot x (ravelArr order (convSame (unravelArr order shape y)
            (flipArr kernel) (a_slice (flipArr kernel).shape shape)))
        have hXs : (convSame (unravelArr order shape x) kernel
            (f_slice kernel.shape shape)).shape = shape := by
          unfold convSame sliceArr
          rw [ofGet_shape, map_sub_f_slice _ _ hk]
        have hYs : (convSame (unravelArr order shape y) (flipArr kernel)
            (a_slice (flipArr kernel).shape shape)).shape = shape := by
          unfold convSame sliceArr
          rw [ofGet_shape, flipArr_shape, map_sub_a_slice _ _ hk]
        rw [dot_ravel order shape _ hXs y hy, dot_comm,
          dot_ravel order shape _ hYs x hx,
          conv_adjoint_nd (unravelArr order shape x) (unravelArr order shape y)
            kernel shape rfl rfl hk]
        exact congrArg List.sum (List.map_congr_left (fun j _ => mul_comm _ _))

/-- Witness for C1 at the docstring kernel [[-1, 1]], shape (3, 3),
order C, with two concrete vectors. -/
theorem convolve_adjoint_consistency_witness :
    dot ((getOp (convolve ⟨[1, 2], [-1, 1]⟩ [3, 3] orderC)).applyVec
        [1, 2, 3, 4, 5, 6, 7, 8, 9]) [1, 0, 2, 0, 3, 0, 4, 0, 5]
      = dot [1, 2, 3, 4, 5, 6, 7, 8, 9]
        ((getOp (convolve ⟨[1, 2], [-1, 1]⟩ [3, 3] orderC)).applyAdjointVec
          [1, 0, 2, 0, 3, 0, 4, 0, 5]) :=
  convolve_adjoint_consistency ⟨[1, 2], [-1, 1]⟩ [3, 3] orderC
    (getOp (convolve ⟨[1, 2], [-1, 1]⟩ [3, 3] orderC))
    (by with_unfolding_all rfl)
    [1, 2, 3, 4, 5, 6, 7, 8, 9] [1, 0, 2, 0, 3, 0, 4, 0, 5]
    (by decide) (by decide)

/-- C2: the operator convolve([[-1, 1]], (3, 3), order C), applied to
the row-major flattening of the 3x3 array with entries 1..9, returns
the flat vector [-1, -1, -1, -4, -1, -1, -7, -1, -1] (the docstring
example of convolve). -/
theorem convolve_literal_case :
    applyOf (convolve ⟨[1, 2], [-1, 1]⟩ [3, 3] orderC)
        [1, 2, 3, 4, 5, 6, 7, 8, 9]
      = some [-1, -1, -1, -4, -1, -1, -7, -1, -1] := by
  with_unfolding_all decide

/-- The row-major flattening of A = indices((5,6)).sum(0)**2 / 2, the
5x6 array with entries (i + j)^2 / 2. -/
def gradExampleInput : List ℚ :=
  [0, 1/2, 2, 9/2, 8, 25/2,
   1/2, 2, 9/2, 8, 25/2, 18,
   2, 9/2, 8, 25/2, 18, 49/2,
   9/2, 8, 25/2, 18, 49/2, 32,
   8, 25/2, 18, 49/2, 32, 81/2]

/-- C3: gradient(derivative=1, points=3, shape=(5,6)) with the default
step and order, applied to the flattening of indices((5,6)).sum(0)**2/2,
returns the flattening of the 5x6 array of the worked docstring example
(first row [0.5, 2, 4.25, 7, 10.25, 5]). -/
theorem gradient_literal_case :
    applyOf (gradient 1 3 [5, 6] none orderC) gradExampleInput
      = some [1/2, 2, 17/4, 7, 41/4, 5,
              2, 4, 6, 8, 10, -1/4,
              17/4, 6, 8, 10, 12, -2,
              7, 8, 10, 12, 14, -17/4,
              4, 1, -1/4, -2, -17/4, -32] := by
  with_unfolding_all decide

/-- C5: convolve fails with a ValueError (the ConfigurationError of the
spec) exactly when the kernel dimensionality differs from the shape
dimensionality or the order token is invalid; in every other case no
such error is raised at construction time. -/
theorem convolve_validation (kernel : NDArr) (shape : List ℕ) (order : String) :
    (kernel.ndim ≠ shape.length ∨ ¬(order = orderC ∨ order = orderF ∨ order = orderA) →
      ∃ m, convolve kernel shape order = .error (.valueError m)) ∧
    (kernel.ndim = shape.length → (order = orderC ∨ order = orderF ∨ order = orderA) →
      ∀ m, convolve kernel shape order ≠ .error (.valueError m)) := by
  constructor
  · intro h
    unfold convolve
    by_cases h1 : kernel.ndim ≠ shape.length
    · rw [if_pos h1]
      exact ⟨_, rfl⟩
    · rcases h with h | h
      · exact absurd h h1
      · rw [if_neg h1, if_pos h]
        exact ⟨_, rfl⟩
  · intro h1 h2 m
    unfold convolve
    rw [if_neg (by simpa using h1), if_neg (not_not_intro h2)]
    split
    · simp
    · simp

/-- Witness for C5: a 1-D kernel against a 2-D shape is rejected with a
ValueError, and the docstring call raises no ValueError. -/
theorem convolve_validation_witness :
    (∃ m, convolve ⟨[2], [1, 1]⟩ [3, 3] orderC = .error (.valueError m)) ∧
    ∀ m, convolve ⟨[1, 2], [-1, 1]⟩ [3, 3] orderC ≠ .error (.valueError m) :=
  ⟨(convolve_validation ⟨[2], [1, 1]⟩ [3, 3] orderC).1 (Or.inl (by decide)),
   (convolve_validation ⟨[1, 2], [-1, 1]⟩ [3, 3] orderC).2 (by decide) (Or.inl rfl)⟩

/-- C6: gradient fails with a ValueError at construction time whenever
points does not exceed the requested derivative order (scipy's
central_diff_weights guard) or a step of the wrong length is given. -/
theorem gradient_validation (derivative points : ℕ) (shape : List ℕ)
    (step : Option (List ℚ)) (order : String)
    (h : points ≤ derivative ∨ ∃ st, step = some st ∧ st.length ≠ shape.length) :
    ∃ m, gradient derivative points shape step order = .error (.valueError m) := by
  unfold gradient
  by_cases hs : shape.any (fun s => s < points) = true
  · rw [if_pos hs]
    exact ⟨_, rfl⟩
  · rw [if_neg hs]
    rcases h with h | ⟨st, rfl, hlen⟩
    · by_cases hn : step.isNone = true
      · rw [if_pos hn]
        unfold gradientBody central_diff_weights
        rw [if_pos (by omega)]
        exact ⟨_, rfl⟩
      · rw [if_neg hn]
        by_cases hl : (step.getD []).length ≠ shape.length
        · rw [if_pos hl]
          exact ⟨_, rfl⟩
        · rw [if_neg hl]
          unfold gradientBody central_diff_weights
          rw [if_pos (by omega)]
          exact ⟨_, rfl⟩
    · rw [if_neg (by simp), if_pos (by simpa using hlen)]
      exact ⟨_, rfl⟩

/-- Witness for C6: gradient(derivative=2, points=1, ...) fails. -/
theorem gradient_validation_witness :
    ∃ m, gradient 2 1 [3, 3] none orderC = .error (.valueError m) :=
  gradient_validation 2 1 [3, 3] none orderC (Or.inl (by decide))

/-- C8: the implicit guard of gradient: when some dimension of the
shape holds fewer entries than points, construction fails at once with
the shape ValueError, whatever the other arguments are. -/
theorem gradient_shape_guard (derivative points : ℕ) (shape : List ℕ)
    (step : Option (List ℚ)) (order : String) (s : ℕ)
    (hs : s ∈ shape) (hlt : s < points) :
    gradient derivative points shape step order
      = .error (.valueError gradShapeMsg) := by
  unfold gradient
  rw [if_pos (List.any_eq_true.mpr ⟨s, hs, by simpa using hlt⟩)]

/-- Witness for C8: shape (2, 6) with points = 3 is rejected even
though derivative, points and step are otherwise valid. -/
theorem gradient_shape_guard_witness :
    gradient 1 3 [2, 6] none orderC = .error (.valueError gradShapeMsg) :=
  gradient_shape_guard 1 3 [2, 6] none orderC 2 (by decide) (by decide)

/-- C9: passing step=None to gradient produces exactly the same result
as passing the explicit step (1.0, ..., 1.0) of length len(shape), on
every input, including the error cases. -/
theorem gradient_default_step (derivative points : ℕ) (shape : List ℕ)
    (order : String) :
    gradient derivative points shape none order
      = gradient derivative points shape (some (List.replicate shape.length 1)) order := by
  unfold gradient
  by_cases hs : shape.any (fun s => s < points) = true
  · rw [if_pos hs, if_pos hs]
  · rw [if_neg hs, if_neg hs, if_pos (by simp), if_neg (by simp)]
    simp

/-- C10: __flip reverses every axis: its entry at any multi-index i of
the right arity is the original entry at shape - 1 - i componentwise,
and consequently __flip is an involution. -/
theorem flip_reverses_all_axes (a : NDArr) (ha : a.data.length = a.shape.prod) :
    (∀ i : List ℤ, i.length = a.ndim →
      (flipArr a).get i
        = a.get (List.zipWith (fun (n : ℕ) (v : ℤ) => (n : ℤ) - 1 - v) a.shape i)) ∧
    flipArr (flipArr a) = a := by
  constructor
  · intro i hi
    exact flipArr_get' a i hi
  · have hfd : (flipArr a).data.length = (flipArr a).shape.prod := by
      rw [flipArr_shape]
      exact flipArr_data_length ha
    have hffd : (flipArr (flipArr a)).data.length = (flipArr (flipArr a)).shape.prod := by
      rw [flipArr_shape]
      exact flipArr_data_length hfd
    apply NDArr.ext'
    · rw [flipArr_shape, flipArr_shape]
    · rw [data_eq_map_get hffd, flipArr_shape, flipArr_shape]
      rw [List.map_congr_left (g := a.get) (fun i hi => by
        have hil : i.length = a.shape.length := length_of_mem_box hi
        rw [flipArr_get' (flipArr a) i (by
            simpa [NDArr.ndim, flipArr_shape] using hil),
          flipArr_shape,
          flipArr_get' a (revAll a.shape i) (by
            simp [revAll, NDArr.ndim, List.length_zipWith, hil]),
          revAll_revAll a.shape i, ← hil, List.take_length])]
      exact (data_eq_map_get ha).symm

/-- Witness for C10 at a concrete 2x2 array. -/
theorem flip_reverses_all_axes_witness :
    ((flipArr ⟨[2, 2], [1, 2, 3, 4]⟩).get [0, 1]
        = NDArr.get ⟨[2, 2], [1, 2, 3, 4]⟩
          (List.zipWith (fun (n : ℕ) (v : ℤ) => (n : ℤ) - 1 - v) [2, 2] [0, 1]))
      ∧ flipArr (flipArr ⟨[2, 2], [1, 2, 3, 4]⟩) = ⟨[2, 2], [1, 2, 3, 4]⟩ :=
  ⟨(flip_reverses_all_axes ⟨[2, 2], [1, 2, 3, 4]⟩ (by decide)).1 [0, 1] (by decide),
   (flip_reverses_all_axes ⟨[2, 2], [1, 2, 3, 4]⟩ (by decide)).2⟩

/-- C7: determinism of operator application.  Every operator produced
by convolve or gradient is a pure function of its input and the data
closed over at construction: two applications to equal inputs give
equal outputs, for the forward and the adjoint map alike.  (In this
purely functional embedding the absence of mutation of the input, the
kernel, the slices and the shape holds by construction: applying an
operator produces new values and leaves every existing value intact.) -/
theorem operator_application_deterministic (op : LinearOperator)
    (_hsrc : (∃ kernel shape order, convolve kernel shape order = Except.ok op) ∨
      (∃ derivative points shape step order,
        gradient derivative points shape step order = Except.ok op))
    (b b' : List (List ℚ)) (hb : b = b') :
    op.apply b = op.apply b' ∧ op.applyAdjoint b = op.applyAdjoint b' := by
  subst hb
  exact ⟨rfl, rfl⟩

/-- Witness for C7 at the docstring convolution operator. -/
theorem operator_application_deterministic_witness :
    (getOp (convolve ⟨[1, 2], [-1, 1]⟩ [3, 3] orderC)).apply
        [[1, 2, 3, 4, 5, 6, 7, 8, 9]]
      = (getOp (convolve ⟨[1, 2], [-1, 1]⟩ [3, 3] orderC)).apply
        [[1, 2, 3, 4, 5, 6, 7, 8, 9]] :=
  (operator_application_deterministic
    (getOp (convolve ⟨[1, 2], [-1, 1]⟩ [3, 3] orderC))
    (Or.inl ⟨⟨[1, 2], [-1, 1]⟩, [3, 3], orderC, by with_unfolding_all rfl⟩)
    [[1, 2, 3, 4, 5, 6, 7, 8, 9]] [[1, 2, 3, 4, 5, 6, 7, 8, 9]] rfl).1

/-- C4: every accepted convolve call returns an operator of shape
(prod(shape), prod(shape)) whose forward and adjoint maps send a batch
of n columns of length prod(shape) to a batch of n columns of length
prod(shape), each column processed independently. -/
theorem convolve_shape_and_batch (kernel : NDArr) (shape : List ℕ)
    (order : String) (op : LinearOperator)
    (hop : convolve kernel shape order = Except.ok op) :
    op.shape = (shape.prod, shape.prod) ∧
    ∀ batch : List (List ℚ), (∀ c ∈ batch, c.length = shape.prod) →
      ((op.apply batch).length = batch.length ∧
        (∀ c ∈ op.apply batch, c.length = shape.prod) ∧
        op.apply batch = batch.map (fun c => op.applyVec c)) ∧
      ((op.applyAdjoint batch).length = batch.length ∧
        (∀ c ∈ op.applyAdjoint batch, c.length = shape.prod) ∧
        op.applyAdjoint batch = batch.map (fun c => op.applyAdjointVec c)) := by
  unfold convolve at hop
  split at hop
  · exact absurd hop (by simp)
  next hdim =>
    split at hop
    · exact absurd hop (by simp)
    next horder =>
      split at hop
      · exact absurd hop (by simp)
      next hne =>
        simp only [Except.ok.injEq] at hop
        subst hop
        have hk : kernel.shape.length = shape.length := by
          simpa [NDArr.ndim] using hdim
        refine ⟨rfl, fun batch _ => ⟨⟨?_, ?_, rfl⟩, ⟨?_, ?_, rfl⟩⟩⟩
        · exact List.length_map _ _
        · intro c hc
          have hc' : c ∈ batch.map (fun c => ravelArr order
              (convSame (unravelArr order shape c) kernel
                (f_slice kernel.shape shape))) := hc
          rw [List.mem_map] at hc'
          obtain ⟨c0, _, rfl⟩ := hc'
          unfold ravelArr
          rw [List.length_map, show (convSame (unravelArr order shape c0) kernel
              (f_slice kernel.shape shape)).shape = shape by
            unfold convSame sliceArr
            rw [ofGet_shape, map_sub_f_slice _ _ hk]]
          exact boxOrd_length order shape
        · exact List.length_map _ _
        · intro c hc
          have hc' : c ∈ batch.map (fun c => ravelArr order
              (convSame (unravelArr order shape c) (flipArr kernel)
                (a_slice (flipArr kernel).shape shape))) := hc
          rw [List.mem_map] at hc'
          obtain ⟨c0, _, rfl⟩ := hc'
          unfold ravelArr
          rw [List.length_map, show (convSame (unravelArr order shape c0)
              (flipArr kernel) (a_slice (flipArr kernel).shape shape)).shape = shape by
            unfold convSame sliceArr
            rw [ofGet_shape, flipArr_shape, map_sub_a_slice _ _ hk]]
          exact boxOrd_length order shape

/-- Witness for C4 at the docstring operator and a one-column batch. -/
theorem convolve_shape_and_batch_witness :
    (getOp (convolve ⟨[1, 2], [-1, 1]⟩ [3, 3] orderC)).shape = (9, 9) ∧
    ((getOp (convolve ⟨[1, 2], [-1, 1]⟩ [3, 3] orderC)).apply
      [[1, 2, 3, 4, 5, 6, 7, 8, 9]]).length = 1 :=
  ⟨(convolve_shape_and_batch ⟨[1, 2], [-1, 1]⟩ [3, 3] orderC
      (getOp (convolve ⟨[1, 2], [-1, 1]⟩ [3, 3] orderC))
      (by with_unfolding_all rfl)).1,
   ((convolve_shape_and_batch ⟨[1, 2], [-1, 1]⟩ [3, 3] orderC
      (getOp (convolve ⟨[1, 2], [-1, 1]⟩ [3, 3] orderC))
      (by with_unfolding_all rfl)).2
      [[1, 2, 3, 4, 5, 6, 7, 8, 9]] (by decide)).1.1⟩

end Pyop
